/-
Verification of the Omni-Utils synchronization core against its design notes.

The Python sources (`RuntimeBase.py`, `UsdManager.py`) are shallowly embedded:
pure helpers become Lean functions, stateful handlers become explicit
state-passing functions, Python dictionaries become insertion-ordered
association lists with Python `d[k] = v` update semantics, and the worker-loop
bodies become trace-producing functions over rational time.
-/
import Mathlib

set_option autoImplicit false

namespace OmniUtils

universe u v

/-! ## Python dictionaries

A Python `dict` is modelled as an insertion-ordered association list.
`dictSet` is `d[k] = v`: overwrite in place if the key is present, otherwise
append at the end.  `dictUpdate` is `d.update(data)`: fold `dictSet` over the
items of `data` in order.  `dictGet?` is key lookup. -/

variable {K : Type u} {V : Type v} [DecidableEq K]

/-- `k in d` for a Python dict. -/
def keyMem (d : List (K × V)) (k : K) : Bool :=
  d.any (fun p => decide (p.1 = k))

/-- `d[k] = v` for a Python dict: overwrite in place or append. -/
def dictSet (d : List (K × V)) (k : K) (v : V) : List (K × V) :=
  if keyMem d k then d.map (fun p => if p.1 = k then (k, v) else p)
  else d ++ [(k, v)]

/-- `d.get(k)` for a Python dict. -/
def dictGet? (d : List (K × V)) (k : K) : Option V :=
  (d.find? (fun p => decide (p.1 = k))).map Prod.snd

/-- `d.update(data)` for Python dicts: set every item of `data` in order. -/
def dictUpdate (d data : List (K × V)) : List (K × V) :=
  data.foldl (fun acc p => dictSet acc p.1 p.2) d

/-- The value bound to `k` by the latest entry of `data` that mentions `k`. -/
def lastVal (data : List (K × V)) (k : K) : Option V :=
  dictGet? data.reverse k

theorem keyMem_nil (k : K) : keyMem ([] : List (K × V)) k = false := rfl

theorem keyMem_append (d e : List (K × V)) (k : K) :
    keyMem (d ++ e) k = (keyMem d k || keyMem e k) := by
  simp [keyMem, List.any_append]

theorem keyMem_eq_false_iff (d : List (K × V)) (k : K) :
    keyMem d k = false ↔ ∀ p ∈ d, p.1 ≠ k := by
  simp [keyMem]

theorem dictGet?_nil (k : K) : dictGet? ([] : List (K × V)) k = none := rfl

theorem dictGet?_eq_none_of_not_mem (d : List (K × V)) (k : K)
    (h : keyMem d k = false) : dictGet? d k = none := by
  rw [keyMem_eq_false_iff] at h
  have hfind : d.find? (fun p => decide (p.1 = k)) = none := by
    rw [List.find?_eq_none]; intro p hp; simpa using h p hp
  simp [dictGet?, hfind]

theorem dictSet_of_not_mem (d : List (K × V)) (k : K) (v : V)
    (h : keyMem d k = false) : dictSet d k v = d ++ [(k, v)] := by
  simp [dictSet, h]

theorem find?_overwrite_other (t : List (K × V)) (k k' : K) (v : V)
    (hk' : k' ≠ k) :
    (t.map (fun p => if p.1 = k then (k, v) else p)).find?
        (fun p => decide (p.1 = k')) = t.find? (fun p => decide (p.1 = k')) := by
  induction t with
  | nil => rfl
  | cons q r ih =>
    by_cases hq : q.1 = k
    · have h1 : ¬ (k = k') := fun h => hk' h.symm
      have h2 : ¬ (q.1 = k') := by rw [hq]; exact h1
      simp only [List.map_cons, if_pos hq, List.find?]
      simp [h1, h2, ih]
    · simp only [List.map_cons, if_neg hq, List.find?]
      by_cases hq' : q.1 = k'
      · simp [hq']
      · simp [hq', ih]

theorem find?_overwrite_self (t : List (K × V)) (k : K) (v : V)
    (hmem : keyMem t k = true) :
    (t.map (fun p => if p.1 = k then (k, v) else p)).find?
        (fun p => decide (p.1 = k)) = some (k, v) := by
  induction t with
  | nil => simp [keyMem] at hmem
  | cons q r ih =>
    by_cases hq : q.1 = k
    · simp [List.find?, hq]
    · have hmem' : keyMem r k = true := by
        simp only [keyMem, List.any_cons] at hmem
        rcases Bool.or_eq_true_iff.mp hmem with h | h
        · exact absurd (of_decide_eq_true h) hq
        · exact h
      simp [List.find?, hq, ih hmem']

/-- Pointwise description of a single Python dict assignment. -/
theorem dictGet?_dictSet (d : List (K × V)) (k k' : K) (v : V) :
    dictGet? (dictSet d k v) k' = if k' = k then some v else dictGet? d k' := by
  unfold dictSet
  by_cases hmem : keyMem d k
  · simp only [hmem, if_true]
    by_cases hk' : k' = k
    · subst hk'
      simp [dictGet?, find?_overwrite_self d k' v hmem]
    · simp [dictGet?, find?_overwrite_other d k k' v hk', hk']
  · simp only [Bool.not_eq_true] at hmem
    simp only [hmem, Bool.false_eq_true, if_false]
    by_cases hk' : k' = k
    · subst hk'
      have hfind : d.find? (fun p => decide (p.1 = k')) = none := by
        rw [List.find?_eq_none]
        intro p hp
        simpa using (keyMem_eq_false_iff d k').mp hmem p hp
      simp [dictGet?, List.find?_append, hfind, List.find?]
    · simp only [dictGet?, if_neg hk', List.find?_append]
      have hone : List.find? (fun p => decide (p.1 = k')) [(k, v)] = none := by
        have : ¬ (k = k') := fun h => hk' h.symm
        simp [List.find?, this]
      cases hfd : d.find? (fun p => decide (p.1 = k')) <;> simp [hone, hfd]

theorem lastVal_nil (k : K) : lastVal ([] : List (K × V)) k = none := rfl

theorem lastVal_cons (p : K × V) (t : List (K × V)) (k : K) :
    lastVal (p :: t) k =
      match lastVal t k with
      | some v => some v
      | none => if p.1 = k then some p.2 else none := by
  simp only [lastVal, dictGet?, List.reverse_cons, List.find?_append]
  cases hfd : t.reverse.find? (fun q => decide (q.1 = k)) with
  | none =>
    by_cases hp : p.1 = k <;> simp [List.find?, hp, hfd]
  | some q => simp [hfd]

/-- Looking a key up after a Python `update` yields the latest binding from
`data` when there is one, and the old binding otherwise. -/
theorem dictGet?_dictUpdate (data d : List (K × V)) (k : K) :
    dictGet? (dictUpdate d data) k =
      match lastVal data k with
      | some v => some v
      | none => dictGet? d k := by
  induction data generalizing d with
  | nil => simp [dictUpdate, lastVal_nil]
  | cons p t ih =>
    have : dictUpdate d (p :: t) = dictUpdate (dictSet d p.1 p.2) t := rfl
    rw [this, ih, lastVal_cons, dictGet?_dictSet]
    cases lastVal t k with
    | some v => simp
    | none =>
      by_cases hk : p.1 = k
      · simp [hk]
      · have : ¬ (k = p.1) := fun h => hk h.symm
        simp [hk, this]

theorem keyMem_true_iff (d : List (K × V)) (k : K) :
    keyMem d k = true ↔ ∃ p ∈ d, p.1 = k := by
  simp [keyMem]

/-- Updating with fresh, mutually distinct keys just appends the new items. -/
theorem dictUpdate_fresh (data d : List (K × V))
    (hnodup : (data.map Prod.fst).Nodup)
    (hfresh : ∀ p ∈ data, keyMem d p.1 = false) :
    dictUpdate d data = d ++ data := by
  induction data generalizing d with
  | nil => simp [dictUpdate]
  | cons p t ih =>
    have hstep : dictUpdate d (p :: t) = dictUpdate (dictSet d p.1 p.2) t := rfl
    have hset : dictSet d p.1 p.2 = d ++ [(p.1, p.2)] :=
      dictSet_of_not_mem d p.1 p.2 (hfresh p (by simp))
    have hnodup' : (t.map Prod.fst).Nodup := (List.nodup_cons.mp hnodup).2
    have hfresh' : ∀ q ∈ t, keyMem (d ++ [(p.1, p.2)]) q.1 = false := by
      intro q hq
      rw [keyMem_append]
      have h1 : keyMem d q.1 = false := hfresh q (List.mem_cons_of_mem _ hq)
      have h2 : keyMem [(p.1, p.2)] q.1 = false := by
        have hne : ¬ p.1 = q.1 := by
          intro h
          exact (List.nodup_cons.mp hnodup).1 (h ▸ List.mem_map_of_mem Prod.fst hq)
        simp [keyMem, hne]
      simp [h1, h2]
    rw [hstep, hset, ih _ hnodup' hfresh']
    simp

/-! ## RuntimeBase.py — `Runtime_Base` worker loops

The two worker threads are embedded as trace-producing functions over
rational time.  `readIter` is one pass of the `while` body of
`Runtime_Base.__read_data` given the current wall clock `now`, the scheduling
variable `thread_start_time` (called `lastTick` below) and whether the
`_read_data` callback raises (`ok = false` means it raised).  `writeLoop` is
the body of `Runtime_Base.__write_data` run over a list of callback outcomes.
`time.sleep 0` (the behind-schedule yield) appears as `.sleep 0`. -/

/-- One observable step of a worker loop: a `time.sleep` call or a callback
invocation (carrying whether the callback succeeded). -/
inductive LoopAction where
  | sleep : ℚ → LoopAction
  | invoke : Bool → LoopAction
  deriving DecidableEq

/-- Is this action a callback invocation? -/
def LoopAction.isInvoke : LoopAction → Bool
  | .invoke _ => true
  | .sleep _ => false

/-- Number of callback invocations in a trace. -/
def invokeCount (tr : List LoopAction) : Nat :=
  tr.countP (fun a => a.isInvoke)

/-- One iteration of the `__read_data` loop body: drift-corrected sleep,
then the guarded `_read_data()` call with a 10 ms backoff on exception.
Returns the actions of the iteration and the new `thread_start_time`. -/
def readIter (refreshPeriodMs lastTick now : ℚ) (ok : Bool) :
    List LoopAction × ℚ :=
  let sleepTime := refreshPeriodMs / 1000 - (now - lastTick)
  if sleepTime > 0 then
    ([.sleep sleepTime, .invoke ok] ++ (if ok then [] else [.sleep (1/100)]),
      now + sleepTime)
  else
    ([.sleep 0, .invoke ok] ++ (if ok then [] else [.sleep (1/100)]), now)

/-- The `__read_data` loop run over a schedule of iterations; each entry is
the wall-clock time observed at the top of the iteration and whether the
`_read_data` callback succeeds.  The schedule lists exactly the iterations
during which `_thread_is_alive` is observed set. -/
def readLoop (refreshPeriodMs : ℚ) :
    List (ℚ × Bool) → ℚ → List LoopAction
  | [], _ => []
  | (now, ok) :: rest, lastTick =>
    (readIter refreshPeriodMs lastTick now ok).1 ++
      readLoop refreshPeriodMs rest (readIter refreshPeriodMs lastTick now ok).2

/-- The `__write_data` loop run over a list of callback outcomes: the body
is `try: _write_data(); time.sleep(_write_sleep) except: pass`, so the sleep
executes only when the callback did not raise. -/
def writeLoop (writeSleep : ℚ) : List Bool → List LoopAction
  | [] => []
  | ok :: rest =>
    (if ok then [.invoke true, .sleep writeSleep] else [.invoke false]) ++
      writeLoop writeSleep rest

theorem invokeCount_append (a b : List LoopAction) :
    invokeCount (a ++ b) = invokeCount a + invokeCount b := by
  simp [invokeCount, List.countP_append]

theorem invokeCount_cons (a : LoopAction) (tr : List LoopAction) :
    invokeCount (a :: tr) =
      invokeCount tr + (if a.isInvoke then 1 else 0) := by
  simp [invokeCount, List.countP_cons]

/-- The read callback runs exactly once per loop iteration. -/
theorem invokeCount_readLoop (p : ℚ) (sched : List (ℚ × Bool)) (lt : ℚ) :
    invokeCount (readLoop p sched lt) = sched.length := by
  induction sched generalizing lt with
  | nil => rfl
  | cons it rest ih =>
    obtain ⟨now, ok⟩ := it
    rw [readLoop, invokeCount_append, ih]
    have : invokeCount (readIter p lt now ok).1 = 1 := by
      unfold readIter
      by_cases h : p / 1000 - (now - lt) > 0 <;>
        cases ok <;> simp [h, invokeCount, List.countP_cons, LoopAction.isInvoke]
    rw [this]
    simp [List.length_cons, Nat.add_comm]

/-- The write callback runs exactly once per loop iteration, raised or not. -/
theorem invokeCount_writeLoop (ws : ℚ) (oks : List Bool) :
    invokeCount (writeLoop ws oks) = oks.length := by
  induction oks with
  | nil => rfl
  | cons ok rest ih =>
    cases ok
    · rw [show writeLoop ws (false :: rest) =
          LoopAction.invoke false :: writeLoop ws rest from rfl,
        invokeCount_cons, ih]
      simp [LoopAction.isInvoke]
    · rw [show writeLoop ws (true :: rest) =
          LoopAction.invoke true :: LoopAction.sleep ws :: writeLoop ws rest
          from rfl,
        invokeCount_cons, invokeCount_cons, ih]
      simp [LoopAction.isInvoke]

/-- Every sleep the write loop ever performs is exactly `_write_sleep`. -/
theorem writeLoop_sleeps (ws : ℚ) (oks : List Bool) :
    ∀ a ∈ writeLoop ws oks, ∀ t, a = .sleep t → t = ws := by
  induction oks with
  | nil => intro a ha; simp [writeLoop] at ha
  | cons ok rest ih =>
    intro a ha t hat
    cases ok
    · rw [show writeLoop ws (false :: rest) =
          LoopAction.invoke false :: writeLoop ws rest from rfl,
        List.mem_cons] at ha
      rcases ha with h | h
      · subst h; cases hat
      · exact ih a h t hat
    · rw [show writeLoop ws (true :: rest) =
          LoopAction.invoke true :: LoopAction.sleep ws :: writeLoop ws rest
          from rfl,
        List.mem_cons, List.mem_cons] at ha
      rcases ha with h | h | h
      · subst h; cases hat
      · subst h; cases hat; rfl
      · exact ih a h t hat

/-! `Runtime_Base` construction-time state.  `_write_sleep` is the field read
by the write loop; `_write_sleep_time` is the field read and written by the
public `write_sleep_time` property.  `Option` models Python attribute
existence: `none` means the instance attribute was never assigned, so reading
it raises `AttributeError`. -/

structure RuntimeBase where
  name : String
  threadIsAlive : Bool
  refreshPeriodMs : ℚ
  writeSleep : ℚ
  writeSleepTime : Option ℚ
  deriving DecidableEq

/-- `Runtime_Base.__init__` (thread-management fields; `__start_update_thread`
sets `_thread_is_alive` to `True`).  `_write_sleep_time` is never assigned. -/
def RuntimeBase.init (name : String) : RuntimeBase :=
  { name := name
    threadIsAlive := true
    refreshPeriodMs := 20
    writeSleep := 1/1000
    writeSleepTime := none }

/-- Setter of the `write_sleep_time` property:
`setattr(self, "_write_sleep_time", value)`. -/
def RuntimeBase.setWriteSleepTime (st : RuntimeBase) (v : ℚ) : RuntimeBase :=
  { st with writeSleepTime := some v }

/-- Getter of the `write_sleep_time` property: `self._write_sleep_time`,
`none` meaning `AttributeError`. -/
def RuntimeBase.getWriteSleepTime (st : RuntimeBase) : Option ℚ :=
  st.writeSleepTime

/-- The write-loop trace of an instance: the loop sleeps `self._write_sleep`. -/
def RuntimeBase.writeTrace (st : RuntimeBase) (oks : List Bool) :
    List LoopAction :=
  writeLoop st.writeSleep oks

/-! ## UsdManager.py — change-notification feedback (`RuntimeUsd._notice_changed`)

A changed path reported by `Usd.Notice.ObjectsChanged` is a property path: it
prints as `<prim path>.<attribute name>` and its `.name` is the attribute
name.  A prim is modelled by the five attributes the handler touches;
`Option` models attribute validity (`none` = `IsValid()` is false /
`Get()` returns `None`).  The stage maps prim paths to prims (`none` = no
prim at that path, so every `GetAttribute` on it is invalid). -/

/-- Python `str.split(sep)` for a one-character separator, on the character
list of the string: `"a.b.".split "." = ["a", "b", ""]`. -/
def splitChar (sep : Char) : List Char → List (List Char)
  | [] => [[]]
  | c :: rest =>
    match splitChar sep rest with
    | [] => [[]]
    | g :: gs => if c = sep then [] :: g :: gs else (c :: g) :: gs

/-- Python `s.split(sep)` for a one-character separator string. -/
def pySplit (s : String) (sep : Char) : List String :=
  (splitChar sep s.data).map (fun l => ⟨l⟩)

/-- Python `s.startswith(pre)`. -/
def pyStartsWith (s pre : String) : Bool :=
  decide (s.data.take pre.data.length = pre.data)

/-- `"value"` (`ATTR_CURRENT_VALUE`). -/
def ATTR_CURRENT_VALUE : String := "value"

/-- `"write:value"` (`ATTR_WRITE_VALUE`). -/
def ATTR_WRITE_VALUE : String := "write:value"

/-- `"write:pause"` (`ATTR_WRITE_PAUSE`). -/
def ATTR_WRITE_PAUSE : String := "write:pause"

/-- `"write:once"` (`ATTR_WRITE_ONCE`). -/
def ATTR_WRITE_ONCE : String := "write:once"

/-- `"symbol"` (`ATTR_WRITE_SYMBOL`). -/
def ATTR_WRITE_SYMBOL : String := "symbol"

variable {W : Type v}

/-- The write-attribute bundle of one prim, as touched by
`RuntimeUsd._notice_changed`; a `none` field is an invalid attribute. -/
structure WritePrim (W : Type v) where
  symbol : Option W
  writeOnce : Option Bool
  writePause : Option Bool
  writeValue : Option W
  deriving DecidableEq

/-- The stage as seen by the feedback listener: prim path to prim. -/
def UsdStage (W : Type v) := String → Option (WritePrim W)

/-- Point update of a stage (authoring one prim). -/
def stageSet (st : UsdStage W) (path : String) (prim : WritePrim W) :
    UsdStage W :=
  fun q => if q = path then some prim else st q

/-- One element of `notice.GetChangedInfoOnlyPaths()`: the path of the prim
owning the changed property, and the property (attribute) name. -/
structure ChangedPath where
  primPath : String
  attrName : String

/-- `str(changed)`: a property path prints as `primPath.attrName`. -/
def ChangedPath.pathStr (c : ChangedPath) : String :=
  c.primPath ++ "." ++ c.attrName

/-- `str(changed).split(".")[0]`: how `_notice_changed` recovers the prim
path from the property path. -/
def ChangedPath.noticePrimPath (c : ChangedPath) : String :=
  (pySplit c.pathStr '.').headD ""

/-- The body of the `for changed in ...` loop of `RuntimeUsd._notice_changed`
for one changed path: returns the updated stage and the
`write_variable(symbol, value)` calls issued to the bridge manager. -/
def processChanged (rootPrimPath : String) (st : UsdStage W)
    (c : ChangedPath) : UsdStage W × List (Option W × Option W) :=
  if pyStartsWith c.pathStr rootPrimPath &&
      (c.attrName == ATTR_WRITE_VALUE || c.attrName == ATTR_WRITE_ONCE ||
        c.attrName == ATTR_WRITE_PAUSE) then
    match st c.noticePrimPath with
    | none => (st, [])
    | some prim =>
      -- `write_symbol = prim.GetAttribute(ATTR_WRITE_SYMBOL)`; invalid ⇒ skip
      match prim.symbol with
      | none => (st, [])
      | some _ =>
        -- Python truthiness of `Get()`: `None` and `False` are falsy
        if prim.writeOnce.getD false || !(prim.writePause.getD false) then
          let prim' := { prim with writeOnce := some false }
          (stageSet st c.noticePrimPath prim',
            [(prim.symbol, prim.writeValue)])
        else (st, [])
  else (st, [])

/-- One fold step of the `for changed in ...` loop: thread the stage,
accumulate the forwarded writes. -/
def noticeStep (rootPrimPath : String)
    (acc : UsdStage W × List (Option W × Option W)) (c : ChangedPath) :
    UsdStage W × List (Option W × Option W) :=
  ((processChanged rootPrimPath acc.1 c).1,
    acc.2 ++ (processChanged rootPrimPath acc.1 c).2)

/-- `RuntimeUsd._notice_changed` over a whole notice: the early return on
`self._stage.expired`, then the loop over the changed paths. -/
def noticeChanged (expired : Bool) (rootPrimPath : String) (st : UsdStage W)
    (cs : List ChangedPath) : UsdStage W × List (Option W × Option W) :=
  if expired then (st, [])
  else cs.foldl (noticeStep rootPrimPath) (st, [])

/-- If a prim's write bundle has `write:once` falsy and `write:pause` truthy,
the handler leaves the stage untouched and forwards nothing, whatever the
changed path and root are. -/
theorem processChanged_paused (rootPrimPath : String) (st : UsdStage W)
    (c : ChangedPath)
    (hpaused : ∀ prim, st c.noticePrimPath = some prim →
      prim.writeOnce.getD false = false ∧ prim.writePause.getD false = true) :
    processChanged rootPrimPath st c = (st, []) := by
  unfold processChanged
  by_cases hguard : (pyStartsWith c.pathStr rootPrimPath &&
      (c.attrName == ATTR_WRITE_VALUE || c.attrName == ATTR_WRITE_ONCE ||
        c.attrName == ATTR_WRITE_PAUSE)) = true
  · rw [if_pos hguard]
    cases hst : st c.noticePrimPath with
    | none => rfl
    | some prim =>
      obtain ⟨honce, hpause⟩ := hpaused prim hst
      cases hsym : prim.symbol with
      | none => simp [hsym]
      | some s => simp [hsym, honce, hpause]
  · rw [if_neg hguard]

/-- Unfolding of the handler body for an in-scope, actionable notification
on a fully constructed prim. -/
theorem processChanged_guarded (rootPrimPath : String) (st : UsdStage W)
    (c : ChangedPath) (prim : WritePrim W) (sym : W)
    (hroot : pyStartsWith c.pathStr rootPrimPath = true)
    (hname : c.attrName = ATTR_WRITE_VALUE ∨ c.attrName = ATTR_WRITE_ONCE ∨
      c.attrName = ATTR_WRITE_PAUSE)
    (hprim : st c.noticePrimPath = some prim)
    (hsym : prim.symbol = some sym) :
    processChanged rootPrimPath st c =
      if prim.writeOnce.getD false || !(prim.writePause.getD false) then
        (stageSet st c.noticePrimPath { prim with writeOnce := some false },
          [(some sym, prim.writeValue)])
      else (st, []) := by
  have hguard : (pyStartsWith c.pathStr rootPrimPath &&
      (c.attrName == ATTR_WRITE_VALUE || c.attrName == ATTR_WRITE_ONCE ||
        c.attrName == ATTR_WRITE_PAUSE)) = true := by
    rw [hroot]
    rcases hname with h | h | h <;> simp [h]
  unfold processChanged
  rw [if_pos hguard]
  simp only [hprim, hsym]

/-- A fold step that skips leaves the accumulator unchanged. -/
theorem noticeStep_skip (rootPrimPath : String)
    (acc : UsdStage W × List (Option W × Option W)) (c : ChangedPath)
    (h : processChanged rootPrimPath acc.1 c = (acc.1, [])) :
    noticeStep rootPrimPath acc c = acc := by
  obtain ⟨s, ws⟩ := acc
  simp only [noticeStep, h]
  simp

/-- If every changed path in the notice is skipped on stage `st`, the whole
handler run is a no-op with no forwarded writes. -/
theorem noticeChanged_skips (rootPrimPath : String) (st : UsdStage W)
    (cs : List ChangedPath)
    (h : ∀ c' ∈ cs, processChanged rootPrimPath st c' = (st, [])) :
    noticeChanged false rootPrimPath st cs = (st, []) := by
  unfold noticeChanged
  rw [if_neg (by simp)]
  have hgen : ∀ (cs' : List ChangedPath),
      (∀ c' ∈ cs', processChanged rootPrimPath st c' = (st, [])) →
      ∀ ws, cs'.foldl (noticeStep rootPrimPath) (st, ws) = (st, ws) := by
    intro cs'
    induction cs' with
    | nil => intro _ ws; rfl
    | cons c' rest ih =>
      intro hall ws
      rw [List.foldl_cons,
        noticeStep_skip rootPrimPath (st, ws) c' (hall c' (by simp))]
      exact ih (fun x hx => hall x (List.mem_cons_of_mem _ hx)) ws
  exact hgen cs h []

/-- A notification on a node whose write-symbol attribute is invalid (or
that has no prim at all) is skipped. -/
theorem processChanged_no_symbol (rootPrimPath : String) (st : UsdStage W)
    (c : ChangedPath)
    (h : st c.noticePrimPath = none ∨
      ∃ prim, st c.noticePrimPath = some prim ∧ prim.symbol = none) :
    processChanged rootPrimPath st c = (st, []) := by
  unfold processChanged
  by_cases hguard : (pyStartsWith c.pathStr rootPrimPath &&
      (c.attrName == ATTR_WRITE_VALUE || c.attrName == ATTR_WRITE_ONCE ||
        c.attrName == ATTR_WRITE_PAUSE)) = true
  · rw [if_pos hguard]
    rcases h with hnone | ⟨prim, hp, hsymn⟩
    · rw [hnone]
    · rw [hp]
      simp [hsymn]
  · rw [if_neg hguard]

/-! ## UsdManager.py — typed attribute creation and the merge-tick operations

`PyVal` is the runtime type of a Python value as dispatched on by
`create_attr` (`type(value) is str` / `is bool` / everything else).
Attribute storage follows the scene-graph store: an attribute has a declared
value type fixed at creation, and `set_attr` parses a textual value through
`Gf.Matrix4d(np.array(ast.literal_eval(value)))` exactly when the declared
type is `Matrix4d`; the parse is kept symbolic (`AttrValue.matrix src`) and
raises (`none`) on a non-string, as `ast.literal_eval` does.
`UsdPrim.CreateAttribute` follows the store's get-or-create behaviour: an
existing attribute keeps its declared type. -/

/-- The Python runtime type of a value, as dispatched on by `create_attr`. -/
inductive PyVal where
  | pstr : String → PyVal
  | pbool : Bool → PyVal
  | pnum : ℚ → PyVal
  deriving DecidableEq

/-- The `Sdf.ValueTypeNames` used by the helpers. -/
inductive SdfValueType where
  | string
  | boolean
  | double
  | matrix4d
  deriving DecidableEq

/-- A stored attribute value: either the Python value as given, or the
matrix parsed from the literal textual array form `src`. -/
inductive AttrValue where
  | py : PyVal → AttrValue
  | matrix : String → AttrValue
  deriving DecidableEq

/-- A scene-graph attribute: declared type and current value (if any). -/
structure UsdAttr where
  typeName : SdfValueType
  value : Option AttrValue
  deriving DecidableEq

/-- A scene-graph prim: its named attributes, in authoring order. -/
structure UsdPrim where
  attrs : List (String × UsdAttr)
  deriving DecidableEq

/-- `prim.GetAttribute(name)`; `none` is an invalid (falsy) attribute. -/
def UsdPrim.GetAttribute (p : UsdPrim) (name : String) : Option UsdAttr :=
  dictGet? p.attrs name

/-- Author an attribute value on a prim. -/
def UsdPrim.putAttr (p : UsdPrim) (name : String) (a : UsdAttr) : UsdPrim :=
  ⟨dictSet p.attrs name a⟩

/-- `prim.CreateAttribute(name, type)`: get-or-create; an attribute that
already exists keeps its declared type. -/
def UsdPrim.CreateAttribute (p : UsdPrim) (name : String)
    (ty : SdfValueType) : UsdPrim × UsdAttr :=
  match p.GetAttribute name with
  | some a => (p, a)
  | none =>
    let a : UsdAttr := ⟨ty, none⟩
    (p.putAttr name a, a)

/-- `UsdGeom.Xformable(prim).AddTransformOp()`: authors the
`xformOp:transform` attribute with type `Matrix4d`. -/
def AddTransformOp (p : UsdPrim) : UsdPrim :=
  match p.GetAttribute "xformOp:transform" with
  | some _ => p
  | none => p.putAttr "xformOp:transform" ⟨.matrix4d, none⟩

/-- `set_attr(attr, value)`: if the declared type is `GfMatrix4d` the value
is parsed from its literal textual array form (raising, `none`, on a
non-string); otherwise the value is stored as given. -/
def set_attr (attr : UsdAttr) (value : PyVal) : Option UsdAttr :=
  if attr.typeName = .matrix4d then
    match value with
    | .pstr s => some { attr with value := some (.matrix s) }
    | _ => none
  else some { attr with value := some (.py value) }

/-- `create_attr(prim, attr_name, value)`: the transform-op special case on
the attribute name, then type dispatch on the Python type of `value`
(`str` → String, `bool` → Bool, else → Double), then `set_attr`. -/
def create_attr (prim : UsdPrim) (attr_name : String) (value : PyVal) :
    Option (UsdPrim × UsdAttr) :=
  let prim := if attr_name = "xformOp:transform" then AddTransformOp prim
    else prim
  let pa :=
    match value with
    | .pstr _ => prim.CreateAttribute attr_name .string
    | .pbool _ => prim.CreateAttribute attr_name .boolean
    | _ => prim.CreateAttribute attr_name .double
  match set_attr pa.2 value with
  | none => none
  | some a => some (pa.1.putAttr attr_name a, a)

/-- The stage as seen by the merge tick: prim paths to prims.  `dictGet?`
is `stage.GetPrimAtPath` (`none` = invalid, falsy prim). -/
def MergeStage := List (String × UsdPrim)

/-- `set_symbol_prim_value(stage, full_key, key, value)`: set the `key`
attribute of the prim at `full_key`, returning `False` without touching the
stage when the prim or the attribute does not exist.  The outer `none`
models an exception escaping from `set_attr`. -/
def set_symbol_prim_value (stage : MergeStage) (full_key key : String)
    (value : PyVal) : Option (MergeStage × Bool) :=
  match dictGet? stage full_key with
  | none => some (stage, false)
  | some prim =>
    match prim.GetAttribute key with
    | none => some (stage, false)
    | some attr =>
      match set_attr attr value with
      | none => none
      | some a => some (dictSet stage full_key (prim.putAttr key a), true)

/-- The operation descriptor built by `get_op_from_key`. -/
structure UsdOp where
  operation : String
  path : String
  key : String
  value : String

/-- `UsdOp.execute(stage, value)`: mutate an existing target, or signal
"not found" (`false`) so creation is deferred outside the change block. -/
def UsdOp.execute (op : UsdOp) (stage : MergeStage) (value : PyVal) :
    Option (MergeStage × Bool) :=
  if op.operation = "attr" then
    set_symbol_prim_value stage op.path op.value value
  else if op.operation = "type" then
    match dictGet? stage op.path with
    | none => some (stage, false)
    | some _ => some (stage, true)
  else
    set_symbol_prim_value stage op.path op.value value

/-! ## UsdManager.py — `flatten_obj`

A nested payload is a finitely nested Python dict with string field names
and non-dict leaves.  Python strings are embedded as their character lists,
so the source's `key + k + "."` is `key ++ k ++ ['.']` and `key[:-1]` is
`List.dropLast`.  `flatten_obj` itself is the recursive `flatten` helper run
on the empty key prefix with an empty `flat_obj` dict; the dict assignment
`flat_obj[key[:-1]] = obj` is `dictSet`. -/

variable {α : Type u}

/-- A nested payload: a non-dict leaf value, or a dict whose fields are
listed in insertion order. -/
inductive NVal (α : Type u) where
  | leaf : α → NVal α
  | dict : List (List Char × NVal α) → NVal α

mutual

/-- The inner `flatten(obj, key)` of `flatten_obj`, threading the `flat_obj`
accumulator explicitly. -/
def flattenInto : NVal α → List Char → List (List Char × α) →
    List (List Char × α)
  | .leaf a, key, acc => dictSet acc key.dropLast a
  | .dict kvs, key, acc => flattenIntoList kvs key acc

/-- The `for k in obj: flatten(obj[k], key + k + ".")` loop. -/
def flattenIntoList : List (List Char × NVal α) → List Char →
    List (List Char × α) → List (List Char × α)
  | [], _, acc => acc
  | (k, v) :: rest, key, acc =>
    flattenIntoList rest key (flattenInto v (key ++ k ++ ['.']) acc)

end

/-- `flatten_obj(obj)`. -/
def flatten_obj (obj : NVal α) : List (List Char × α) :=
  flattenInto obj [] []

mutual

/-- The leaves of a payload: (path of field names, leaf value), in
traversal order. -/
def leaves : NVal α → List (List (List Char) × α)
  | .leaf a => [([], a)]
  | .dict kvs => leavesList kvs

/-- Leaves of the fields of a dict. -/
def leavesList : List (List Char × NVal α) → List (List (List Char) × α)
  | [] => []
  | (k, v) :: rest =>
    (leaves v).map (fun pa => (k :: pa.1, pa.2)) ++ leavesList rest

end

/-- Each path segment followed by a dot: the key prefix the recursion of
`flatten_obj` accumulates below a given node. -/
def concatDots : List (List Char) → List Char
  | [] => []
  | k :: rest => k ++ '.' :: concatDots rest

/-- The flat key the code computes for a leaf at `path`: the accumulated
prefix with its final character removed (`key[:-1]`). -/
def pyKey (path : List (List Char)) : List Char :=
  (concatDots path).dropLast

/-- No `'.'` occurs in the string. -/
def dotFree (s : List Char) : Bool :=
  decide ('.' ∉ s)

mutual

/-- Well-formed payload: at every dict level the field names are distinct
and contain no `'.'`. -/
def wfVal : NVal α → Bool
  | .leaf _ => true
  | .dict kvs =>
    decide ((kvs.map Prod.fst).Nodup) && wfList kvs

/-- `wfVal` over the fields of a dict. -/
def wfList : List (List Char × NVal α) → Bool
  | [] => true
  | (k, v) :: rest => dotFree k && wfVal v && wfList rest

end

theorem keyMem_iff_mem_map {K : Type u} {V' : Type v} [DecidableEq K]
    (d : List (K × V')) (k : K) :
    keyMem d k = true ↔ k ∈ d.map Prod.fst := by
  simp [keyMem, List.any_eq_true, List.mem_map]

theorem dotFree_tail (c : Char) (t : List Char)
    (h : dotFree (c :: t) = true) : dotFree t = true := by
  rw [dotFree, decide_eq_true_eq] at h ⊢
  exact fun hm => h (List.mem_cons_of_mem _ hm)

theorem dotFree_head (c : Char) (t : List Char)
    (h : dotFree (c :: t) = true) : c ≠ '.' := by
  rw [dotFree, decide_eq_true_eq] at h
  intro hc
  exact h (hc ▸ List.mem_cons_self _ _)

/-- A nonempty dotted prefix ends in a dot. -/
theorem concatDots_eq_concat (p : List (List Char)) (hp : p ≠ []) :
    concatDots p = pyKey p ++ ['.'] := by
  suffices h : ∃ t, concatDots p = t ++ ['.'] by
    obtain ⟨t, ht⟩ := h
    have : pyKey p = t := by rw [pyKey, ht, List.dropLast_concat]
    rw [this, ht]
  have key : ∀ (rest : List (List Char)) (k : List Char),
      ∃ t, concatDots (k :: rest) = t ++ ['.'] := by
    intro rest
    induction rest with
    | nil => exact fun k => ⟨k, by simp [concatDots]⟩
    | cons a b ih =>
      intro k
      obtain ⟨t, ht⟩ := ih a
      refine ⟨k ++ '.' :: t, ?_⟩
      rw [show concatDots (k :: a :: b) = k ++ '.' :: concatDots (a :: b)
        from rfl, ht]
      simp
  cases p with
  | nil => exact absurd rfl hp
  | cons k rest => exact key rest k

/-- Splitting a dotted string at its first dot is unambiguous when the
first segment is dot-free. -/
theorem dot_cons_inj (cs cs' : List Char) (k : List Char) :
    ∀ k', dotFree k = true → dotFree k' = true →
      k ++ '.' :: cs = k' ++ '.' :: cs' → k = k' ∧ cs = cs' := by
  induction k with
  | nil =>
    intro k' _ hk' h
    cases k' with
    | nil => simpa using h
    | cons c' t' =>
      simp only [List.nil_append, List.cons_append, List.cons.injEq] at h
      exact absurd h.1.symm (dotFree_head c' t' hk')
  | cons c t ih =>
    intro k' hk hk' h
    cases k' with
    | nil =>
      simp only [List.cons_append, List.nil_append, List.cons.injEq] at h
      exact absurd h.1 (dotFree_head c t hk)
    | cons c' t' =>
      simp only [List.cons_append, List.cons.injEq] at h
      obtain ⟨hc, hrest⟩ := h
      obtain ⟨h1, h2⟩ := ih t' (dotFree_tail c t hk) (dotFree_tail c' t' hk') hrest
      exact ⟨by rw [hc, h1], h2⟩

/-- `concatDots` is injective on paths of dot-free segments. -/
theorem concatDots_inj (p : List (List Char)) :
    ∀ q, (∀ s ∈ p, dotFree s = true) → (∀ s ∈ q, dotFree s = true) →
      concatDots p = concatDots q → p = q := by
  induction p with
  | nil =>
    intro q _ _ h
    cases q with
    | nil => rfl
    | cons k' q' =>
      rw [concatDots, concatDots] at h
      exact absurd h.symm (by simp)
  | cons k p' ih =>
    intro q hp hq h
    cases q with
    | nil =>
      rw [concatDots, concatDots] at h
      exact absurd h (by simp)
    | cons k' q' =>
      rw [concatDots, concatDots] at h
      obtain ⟨h1, h2⟩ := dot_cons_inj (concatDots p') (concatDots q') k k'
        (hp k (by simp)) (hq k' (by simp)) h
      have : p' = q' := ih q' (fun s hs => hp s (List.mem_cons_of_mem _ hs))
        (fun s hs => hq s (List.mem_cons_of_mem _ hs)) h2
      rw [h1, this]

/-- The tail a leaf key carries after its first segment: empty for a leaf
directly below the node, or a dot followed by the joined inner path. -/
theorem dropDot_shape (p : List (List Char)) :
    ('.' :: concatDots p).dropLast = [] ∨
      ∃ t, ('.' :: concatDots p).dropLast = '.' :: t := by
  cases p with
  | nil => left; simp [concatDots]
  | cons a b =>
    right
    refine ⟨pyKey (a :: b), ?_⟩
    rw [concatDots_eq_concat (a :: b) (by simp)]
    rw [show ('.' :: (pyKey (a :: b) ++ ['.'])) =
      ('.' :: pyKey (a :: b)) ++ ['.'] from rfl, List.dropLast_concat]

/-- Two leaf keys that start with different dot-free field names differ. -/
theorem key_head_ne (u u' : List Char) (k : List Char) :
    ∀ k', dotFree k = true → dotFree k' = true → k ≠ k' →
      (u = [] ∨ ∃ t, u = '.' :: t) → (u' = [] ∨ ∃ t, u' = '.' :: t) →
      k ++ u ≠ k' ++ u' := by
  induction k with
  | nil =>
    intro k' _ hk' hne hu hu'
    cases k' with
    | nil => exact absurd rfl hne
    | cons c' t' =>
      intro h
      rcases hu with rfl | ⟨t, rfl⟩
      · exact absurd h (by simp)
      · simp only [List.nil_append, List.cons_append, List.cons.injEq] at h
        exact (dotFree_head c' t' hk') h.1.symm
  | cons c t ih =>
    intro k' hk hk' hne hu hu'
    cases k' with
    | nil =>
      intro h
      rcases hu' with rfl | ⟨t', rfl⟩
      · exact absurd h (by simp)
      · simp only [List.cons_append, List.nil_append, List.cons.injEq] at h
        exact (dotFree_head c t hk) h.1
    | cons c' t' =>
      intro h
      simp only [List.cons_append, List.cons.injEq] at h
      obtain ⟨hc, hrest⟩ := h
      have htne : t ≠ t' := fun hteq => hne (by rw [hc, hteq])
      exact ih t' (dotFree_tail c t hk) (dotFree_tail c' t' hk') htne hu hu' hrest

/-- The flat keys `flatten_obj` computes for the leaves below a node reached
with accumulated key prefix `key`. -/
def producedKeys (v : NVal α) (key : List Char) : List (List Char) :=
  (leaves v).map (fun pa => (key ++ concatDots pa.1).dropLast)

/-- `producedKeys` over the fields of a dict. -/
def producedKeysList (kvs : List (List Char × NVal α)) (key : List Char) :
    List (List Char) :=
  (leavesList kvs).map (fun pa => (key ++ concatDots pa.1).dropLast)

theorem key_step (key k : List Char) (p : List (List Char)) :
    (key ++ k ++ ['.']) ++ concatDots p = key ++ concatDots (k :: p) := by
  rw [show concatDots (k :: p) = k ++ '.' :: concatDots p from rfl]
  simp [List.append_assoc]

theorem key_split (key k cp : List Char) :
    key ++ (k ++ '.' :: cp) = (key ++ k) ++ ('.' :: cp) :=
  (List.append_assoc key k ('.' :: cp)).symm

theorem producedKeys_dict (kvs : List (List Char × NVal α))
    (key : List Char) :
    producedKeys (.dict kvs) key = producedKeysList kvs key := by
  simp [producedKeys, producedKeysList, leaves]

theorem producedKeysList_cons (k : List Char) (v : NVal α)
    (rest : List (List Char × NVal α)) (key : List Char) :
    producedKeysList ((k, v) :: rest) key =
      producedKeys v (key ++ k ++ ['.']) ++ producedKeysList rest key := by
  unfold producedKeysList producedKeys
  rw [show leavesList ((k, v) :: rest) =
    (leaves v).map (fun pa => (k :: pa.1, pa.2)) ++ leavesList rest from rfl]
  rw [List.map_append, List.map_map]
  congr 1
  have : ((fun pa : List (List Char) × α =>
        (key ++ concatDots pa.1).dropLast) ∘
          (fun pa : List (List Char) × α => (k :: pa.1, pa.2))) =
      (fun pa : List (List Char) × α =>
        ((key ++ k ++ ['.']) ++ concatDots pa.1).dropLast) := by
    funext pa
    simp only [Function.comp]
    rw [key_step]
  rw [this]

/-- Every key produced below a dict splits as
`key ++ field name ++ (dotted tail)`. -/
theorem mem_producedKeysList (kvs : List (List Char × NVal α))
    (key x : List Char) (hx : x ∈ producedKeysList kvs key) :
    ∃ kv ∈ kvs, ∃ pa ∈ leaves kv.2,
      x = (key ++ kv.1) ++ ('.' :: concatDots pa.1).dropLast := by
  induction kvs with
  | nil => simp [producedKeysList, leavesList] at hx
  | cons kv rest ih =>
    obtain ⟨k, v⟩ := kv
    rw [producedKeysList_cons, List.mem_append] at hx
    rcases hx with hx | hx
    · simp only [producedKeys, List.mem_map] at hx
      obtain ⟨pa, hpa, rfl⟩ := hx
      refine ⟨(k, v), by simp, pa, hpa, ?_⟩
      rw [key_step, show concatDots (k :: pa.1) = k ++ '.' :: concatDots pa.1
        from rfl, key_split]
      rw [List.dropLast_append_of_ne_nil _ (by simp)]
    · obtain ⟨kv', hkv', pa, hpa, hform⟩ := ih hx
      exact ⟨kv', List.mem_cons_of_mem _ hkv', pa, hpa, hform⟩

theorem wfList_key_dotFree (kvs : List (List Char × NVal α))
    (h : wfList kvs = true) : ∀ kv ∈ kvs, dotFree kv.1 = true := by
  induction kvs with
  | nil => intro kv hkv; simp at hkv
  | cons p rest ih =>
    obtain ⟨k, v⟩ := p
    rw [wfList, Bool.and_eq_true, Bool.and_eq_true] at h
    intro kv hkv
    rcases List.mem_cons.mp hkv with rfl | hkv
    · exact h.1.1
    · exact ih h.2 kv hkv

theorem wfList_wfVal_mem (kvs : List (List Char × NVal α))
    (h : wfList kvs = true) : ∀ kv ∈ kvs, wfVal kv.2 = true := by
  induction kvs with
  | nil => intro kv hkv; simp at hkv
  | cons p rest ih =>
    obtain ⟨k, v⟩ := p
    rw [wfList, Bool.and_eq_true, Bool.and_eq_true] at h
    intro kv hkv
    rcases List.mem_cons.mp hkv with rfl | hkv
    · exact h.1.2
    · exact ih h.2 kv hkv

mutual

/-- Under well-formedness the flat keys below a node are pairwise distinct. -/
theorem producedKeys_nodup (v : NVal α) (h : wfVal v = true)
    (key : List Char) : (producedKeys v key).Nodup := by
  cases v with
  | leaf a => simp [producedKeys, leaves]
  | dict kvs =>
    rw [wfVal, Bool.and_eq_true, decide_eq_true_eq] at h
    rw [producedKeys_dict]
    exact producedKeysList_nodup kvs h.2 h.1 key

/-- Under well-formedness the flat keys below the fields of a dict are
pairwise distinct. -/
theorem producedKeysList_nodup (kvs : List (List Char × NVal α))
    (h : wfList kvs = true) (hk : (kvs.map Prod.fst).Nodup)
    (key : List Char) : (producedKeysList kvs key).Nodup := by
  cases kvs with
  | nil => simp [producedKeysList, leavesList]
  | cons kv rest =>
    obtain ⟨k, v⟩ := kv
    rw [wfList, Bool.and_eq_true, Bool.and_eq_true] at h
    obtain ⟨⟨hdotk, hwfv⟩, hwfrest⟩ := h
    rw [List.map_cons, List.nodup_cons] at hk
    obtain ⟨hknotin, hkrest⟩ := hk
    rw [producedKeysList_cons]
    refine List.Nodup.append (producedKeys_nodup v hwfv _)
      (producedKeysList_nodup rest hwfrest hkrest key) ?_
    intro x hx1 hx2
    simp only [producedKeys, List.mem_map] at hx1
    obtain ⟨pa, hpa, rfl⟩ := hx1
    obtain ⟨kv', hkv', pa', hpa', hform⟩ := mem_producedKeysList rest key _ hx2
    have hxeq : ((key ++ k ++ ['.']) ++ concatDots pa.1).dropLast =
        (key ++ k) ++ ('.' :: concatDots pa.1).dropLast := by
      rw [key_step, show concatDots (k :: pa.1) = k ++ '.' :: concatDots pa.1
        from rfl, key_split]
      rw [List.dropLast_append_of_ne_nil _ (by simp)]
    rw [hxeq] at hform
    have hcancel : k ++ ('.' :: concatDots pa.1).dropLast =
        kv'.1 ++ ('.' :: concatDots pa'.1).dropLast := by
      have h2 : key ++ (k ++ ('.' :: concatDots pa.1).dropLast) =
          key ++ (kv'.1 ++ ('.' :: concatDots pa'.1).dropLast) := by
        rw [← List.append_assoc, ← List.append_assoc]
        exact hform
      have := congrArg (List.drop key.length) h2
      simpa [List.drop_left] using this
    have hne : k ≠ kv'.1 := by
      intro heq
      apply hknotin
      rw [heq]
      exact List.mem_map.mpr ⟨kv', hkv', rfl⟩
    exact key_head_ne _ _ k kv'.1 hdotk
      (wfList_key_dotFree rest hwfrest kv' hkv') hne
      (dropDot_shape pa.1) (dropDot_shape pa'.1) hcancel

end

mutual

/-- Running the inner `flatten` on a node whose pending flat keys are fresh
for the accumulator and mutually distinct appends exactly one entry per
leaf, keyed by the accumulated prefix joined with the inner path. -/
theorem flattenInto_spec (v : NVal α) (key : List Char)
    (acc : List (List Char × α))
    (hfresh : ∀ x ∈ producedKeys v key, keyMem acc x = false)
    (hnodup : (producedKeys v key).Nodup) :
    flattenInto v key acc =
      acc ++ (leaves v).map
        (fun pa => ((key ++ concatDots pa.1).dropLast, pa.2)) := by
  cases v with
  | leaf a =>
    have hpk : producedKeys (.leaf a) key = [key.dropLast] := by
      simp [producedKeys, leaves, concatDots]
    have hmem : keyMem acc key.dropLast = false :=
      hfresh _ (by rw [hpk]; simp)
    rw [show flattenInto (.leaf a) key acc = dictSet acc key.dropLast a
      from rfl]
    rw [dictSet_of_not_mem _ _ _ hmem]
    simp [leaves, concatDots]
  | dict kvs =>
    rw [producedKeys_dict] at hfresh hnodup
    rw [show flattenInto (.dict kvs) key acc = flattenIntoList kvs key acc
      from rfl]
    rw [flattenIntoList_spec kvs key acc hfresh hnodup]
    rw [show leaves (NVal.dict kvs) = leavesList kvs from rfl]

/-- `flattenInto_spec` for the field loop of a dict. -/
theorem flattenIntoList_spec (kvs : List (List Char × NVal α))
    (key : List Char) (acc : List (List Char × α))
    (hfresh : ∀ x ∈ producedKeysList kvs key, keyMem acc x = false)
    (hnodup : (producedKeysList kvs key).Nodup) :
    flattenIntoList kvs key acc =
      acc ++ (leavesList kvs).map
        (fun pa => ((key ++ concatDots pa.1).dropLast, pa.2)) := by
  cases kvs with
  | nil => simp [flattenIntoList, leavesList]
  | cons kv rest =>
    obtain ⟨k, v⟩ := kv
    rw [producedKeysList_cons] at hfresh hnodup
    rw [List.nodup_append] at hnodup
    obtain ⟨hnd1, hnd2, hdisj⟩ := hnodup
    have hfresh1 : ∀ x ∈ producedKeys v (key ++ k ++ ['.']),
        keyMem acc x = false :=
      fun x hx => hfresh x (List.mem_append_left _ hx)
    have step1 := flattenInto_spec v (key ++ k ++ ['.']) acc hfresh1 hnd1
    rw [show flattenIntoList ((k, v) :: rest) key acc =
      flattenIntoList rest key (flattenInto v (key ++ k ++ ['.']) acc)
      from rfl]
    rw [step1]
    set A := (leaves v).map
      (fun pa => (((key ++ k ++ ['.']) ++ concatDots pa.1).dropLast, pa.2))
      with hA
    have hAkeys : A.map Prod.fst = producedKeys v (key ++ k ++ ['.']) := by
      rw [hA, List.map_map]
      rfl
    have hfresh2 : ∀ x ∈ producedKeysList rest key,
        keyMem (acc ++ A) x = false := by
      intro x hx
      rw [keyMem_append]
      have hacc : keyMem acc x = false :=
        hfresh x (List.mem_append_right _ hx)
      have hAx : keyMem A x = false := by
        by_contra hc
        rw [Bool.not_eq_false, keyMem_iff_mem_map, hAkeys] at hc
        exact hdisj hc hx
      rw [hacc, hAx]
      rfl
    rw [flattenIntoList_spec rest key (acc ++ A) hfresh2 hnd2,
      List.append_assoc]
    congr 1
    rw [show leavesList ((k, v) :: rest) =
      (leaves v).map (fun pa => (k :: pa.1, pa.2)) ++ leavesList rest
      from rfl, List.map_append]
    congr 1
    rw [List.map_map, hA]
    have hfun : ((fun pa : List (List Char) × α =>
          ((key ++ concatDots pa.1).dropLast, pa.2)) ∘
            (fun pa : List (List Char) × α => (k :: pa.1, pa.2))) =
        (fun pa : List (List Char) × α =>
          (((key ++ k ++ ['.']) ++ concatDots pa.1).dropLast, pa.2)) := by
      funext pa
      simp only [Function.comp]
      rw [key_step]
    rw [hfun]

end

/-- On a well-formed payload `flatten_obj` produces exactly one entry per
leaf, keyed by the dot-joined path, in traversal order. -/
theorem flatten_obj_eq (v : NVal α) (h : wfVal v = true) :
    flatten_obj v = (leaves v).map (fun pa => (pyKey pa.1, pa.2)) := by
  have hf : ∀ x ∈ producedKeys v [],
      keyMem ([] : List (List Char × α)) x = false := fun x _ => rfl
  have hs := flattenInto_spec v [] [] hf (producedKeys_nodup v h [])
  rw [flatten_obj, hs]
  simp [pyKey]

/-- On a well-formed payload the flat keys are pairwise distinct. -/
theorem flatten_obj_keys_nodup (v : NVal α) (h : wfVal v = true) :
    ((flatten_obj v).map Prod.fst).Nodup := by
  rw [flatten_obj_eq v h, List.map_map]
  have h2 := producedKeys_nodup v h []
  unfold producedKeys at h2
  simp only [List.nil_append] at h2
  exact h2

/-- `RuntimeUsd._on_data_read`: flatten the event payload and merge it into
the staging dictionary (under the lock). -/
def onDataRead (buf : List (List Char × α)) (payload : NVal α) :
    List (List Char × α) :=
  dictUpdate buf (flatten_obj payload)

/-! ## Further staging-buffer lemmas (for the drain/merge claims) -/

theorem lastVal_append (d1 d2 : List (K × V)) (k : K) :
    lastVal (d1 ++ d2) k =
      match lastVal d2 k with
      | some v => some v
      | none => lastVal d1 k := by
  simp only [lastVal, dictGet?, List.reverse_append, List.find?_append]
  cases hfd : d2.reverse.find? (fun q => decide (q.1 = k)) <;> simp [hfd]

theorem dictGet?_foldl_dictUpdate (ds : List (List (K × V)))
    (d : List (K × V)) (k : K) :
    dictGet? (ds.foldl dictUpdate d) k =
      match lastVal ds.flatten k with
      | some v => some v
      | none => dictGet? d k := by
  induction ds generalizing d with
  | nil => simp [lastVal_nil]
  | cons a rest ih =>
    rw [List.foldl_cons, ih, List.flatten_cons, lastVal_append,
      dictGet?_dictUpdate]
    cases lastVal rest.flatten k <;> cases lastVal a k <;> simp

theorem lastVal_some_mem (d : List (K × V)) (k : K) (v : V)
    (h : lastVal d k = some v) : k ∈ d.map Prod.fst := by
  unfold lastVal dictGet? at h
  cases hfd : d.reverse.find? (fun q => decide (q.1 = k)) with
  | none => rw [hfd] at h; cases h
  | some p =>
    have hp1 := List.find?_some hfd
    have hp2 := List.mem_of_find?_eq_some hfd
    rw [List.mem_reverse] at hp2
    exact List.mem_map.mpr ⟨p, hp2, of_decide_eq_true hp1⟩

/-! ## Claim theorems -/

/-- C1 — counterexample.  With a field name that itself contains a dot, two
distinct leaf paths flatten to the same key: the payload
`{"a.b": 1, "a": {"b": 2}}` has two leaves, but `flatten_obj` returns a
single entry (`"a.b" ↦ 2`), so one leaf value is lost and two distinct leaf
paths collide — refuting the claim for arbitrary string fields. -/
theorem flatten_obj_dotted_key_collision :
    flatten_obj (NVal.dict [(['a', '.', 'b'], NVal.leaf (1 : ℤ)),
        (['a'], NVal.dict [(['b'], NVal.leaf 2)])]) =
      [(['a', '.', 'b'], 2)]
    ∧ (leaves (NVal.dict [(['a', '.', 'b'], NVal.leaf (1 : ℤ)),
        (['a'], NVal.dict [(['b'], NVal.leaf 2)])])).length = 2 := by
  constructor
  · rfl
  · rfl

/-- C1 (amended): for every nested payload whose field names are distinct at
each level and contain no `'.'`, `flatten_obj` is deterministic and total and
produces exactly one dot-joined flat key per leaf (in traversal order), no
two distinct leaf paths collide, and flattening, depositing into an empty
staging buffer, and draining reconstructs exactly the original leaf set. -/
theorem flatten_obj_roundtrip_dotfree (v : NVal α) (h : wfVal v = true) :
    flatten_obj v = (leaves v).map (fun pa => (pyKey pa.1, pa.2))
    ∧ ((flatten_obj v).map Prod.fst).Nodup
    ∧ onDataRead [] v = (leaves v).map (fun pa => (pyKey pa.1, pa.2)) := by
  refine ⟨flatten_obj_eq v h, flatten_obj_keys_nodup v h, ?_⟩
  rw [onDataRead,
    dictUpdate_fresh (flatten_obj v) []
      (flatten_obj_keys_nodup v h) (fun p _ => rfl),
    List.nil_append]
  exact flatten_obj_eq v h

/-- C1 — witness: the amended theorem evaluated on
`{"a": 1, "c": {"b": 2}}`. -/
theorem flatten_obj_roundtrip_dotfree_witness :
    flatten_obj (NVal.dict [(['a'], NVal.leaf (1 : ℤ)),
        (['c'], NVal.dict [(['b'], NVal.leaf 2)])]) =
      [(['a'], 1), (['c', '.', 'b'], 2)] := by
  have h := (flatten_obj_roundtrip_dotfree
    (NVal.dict [(['a'], NVal.leaf (1 : ℤ)),
      (['c'], NVal.dict [(['b'], NVal.leaf 2)])]) (by decide)).1
  rw [h]
  rfl

/-- C7: the staging buffer is last-write-wins per flat key — after any
sequence of deposits into an empty buffer, each key is bound to the value of
the latest deposit mentioning it; depositing `{"a.b": 1}` then `{"a.b": 2}`
and draining yields exactly `{"a.b": 2}`; and deposits with disjoint key
sets commute (insertion order of distinct keys is irrelevant to the drained
contents). -/
theorem staging_buffer_last_write_wins :
    (∀ (V' : Type) (ds : List (List (String × V'))) (k : String),
      dictGet? (ds.foldl dictUpdate []) k = lastVal ds.flatten k)
    ∧ dictUpdate (dictUpdate ([] : List (String × ℤ)) [("a.b", 1)])
        [("a.b", 2)] = [("a.b", 2)]
    ∧ (∀ (V' : Type) (buf d1 d2 : List (String × V')),
      (∀ x ∈ d1.map Prod.fst, x ∉ d2.map Prod.fst) →
      ∀ k, dictGet? (dictUpdate (dictUpdate buf d1) d2) k =
        dictGet? (dictUpdate (dictUpdate buf d2) d1) k) := by
  refine ⟨?_, by rfl, ?_⟩
  · intro V' ds k
    rw [dictGet?_foldl_dictUpdate]
    cases lastVal ds.flatten k <;> simp [dictGet?_nil]
  · intro V' buf d1 d2 hdisj k
    rw [dictGet?_dictUpdate, dictGet?_dictUpdate, dictGet?_dictUpdate,
      dictGet?_dictUpdate]
    cases h1 : lastVal d1 k with
    | none => cases h2 : lastVal d2 k <;> simp
    | some v1 =>
      cases h2 : lastVal d2 k with
      | none => simp
      | some v2 =>
        exact absurd (lastVal_some_mem d2 k v2 h2)
          (hdisj k (lastVal_some_mem d1 k v1 h1))

/-- C7 — witness: commuting two deposits with disjoint keys. -/
theorem staging_buffer_last_write_wins_witness :
    dictGet? (dictUpdate (dictUpdate ([] : List (String × ℤ))
        [("x", 1)]) [("y", 2)]) "x" =
      dictGet? (dictUpdate (dictUpdate ([] : List (String × ℤ))
        [("y", 2)]) [("x", 1)]) "x" :=
  staging_buffer_last_write_wins.2.2 ℤ [] [("x", 1)] [("y", 2)]
    (by decide) "x"

/-- Example changed path used by the notification witnesses. -/
def exChanged : ChangedPath := ⟨"/World/sym", "write:value"⟩

/-- Example one-prim stage used by the notification witnesses. -/
def exStage (prim : WritePrim String) : UsdStage String :=
  fun p => if p = "/World/sym" then some prim else none

/-- C2: for a change notification on an actionable write attribute of a node
whose write-symbol attribute exists, the current write-value is forwarded to
the bridge iff `write:once` is truthy OR `write:pause` is falsy; and with
`write:pause` true and `write:once` false, any number of repeated change
notifications forwards zero writes. -/
theorem notice_forward_iff_pause_once (rootPrimPath : String)
    (st : UsdStage W) (c : ChangedPath) (prim : WritePrim W) (sym : W)
    (hroot : pyStartsWith c.pathStr rootPrimPath = true)
    (hname : c.attrName = ATTR_WRITE_VALUE ∨ c.attrName = ATTR_WRITE_ONCE ∨
      c.attrName = ATTR_WRITE_PAUSE)
    (hprim : st c.noticePrimPath = some prim)
    (hsym : prim.symbol = some sym) :
    ((processChanged rootPrimPath st c).2 ≠ [] ↔
      (prim.writeOnce.getD false = true ∨ prim.writePause.getD false = false))
    ∧ ((prim.writeOnce.getD false = true ∨
        prim.writePause.getD false = false) →
      (processChanged rootPrimPath st c).2 = [(some sym, prim.writeValue)])
    ∧ (prim.writeOnce = some false → prim.writePause = some true →
      ∀ n : ℕ, noticeChanged false rootPrimPath st (List.replicate n c) =
        (st, [])) := by
  have hg := processChanged_guarded rootPrimPath st c prim sym hroot hname
    hprim hsym
  refine ⟨?_, ?_, ?_⟩
  · rw [hg]
    by_cases hcond :
        (prim.writeOnce.getD false || !(prim.writePause.getD false)) = true
    · rw [if_pos hcond]
      constructor
      · intro _
        rcases Bool.or_eq_true_iff.mp hcond with h1 | h1
        · exact Or.inl h1
        · right
          cases hp : prim.writePause.getD false
          · rfl
          · rw [hp] at h1; cases h1
      · intro _; simp
    · rw [if_neg hcond]
      constructor
      · intro hne; exact absurd rfl hne
      · intro hP
        exfalso
        apply hcond
        rcases hP with h1 | h1 <;> simp [h1]
  · intro hP
    have hcond :
        (prim.writeOnce.getD false || !(prim.writePause.getD false)) = true := by
      rcases hP with h1 | h1 <;> simp [h1]
    rw [hg, if_pos hcond]
  · intro honce hpause n
    apply noticeChanged_skips
    intro c' hc'
    rcases List.eq_of_mem_replicate hc' with rfl
    apply processChanged_paused
    intro q hq
    rw [hprim] at hq
    injection hq with hq
    rw [← hq]
    exact ⟨by simp [honce], by simp [hpause]⟩

/-- C2 — witness: with `write:pause = false` the edit is forwarded with the
prim's symbol and write-value. -/
theorem notice_forward_iff_pause_once_witness :
    (processChanged "/World"
      (exStage ⟨some "MAIN.x", some false, some false, some "5"⟩)
      exChanged).2 = [(some "MAIN.x", some "5")] :=
  (notice_forward_iff_pause_once "/World"
    (exStage ⟨some "MAIN.x", some false, some false, some "5"⟩) exChanged
    ⟨some "MAIN.x", some false, some false, some "5"⟩ "MAIN.x"
    (by decide) (Or.inl rfl) (by decide) rfl).2.1 (Or.inr rfl)

/-- C3: a forward with `write:once` true clears `write:once` to false right
after forwarding, so a further notification under `write:pause` forwards
nothing until the flag is set again; a forward caused by `write:pause` false
with `write:once` already false leaves the node (and so the flag) unchanged. -/
theorem notice_write_once_cleared (rootPrimPath : String) (st : UsdStage W)
    (c : ChangedPath) (prim : WritePrim W) (sym : W)
    (hroot : pyStartsWith c.pathStr rootPrimPath = true)
    (hname : c.attrName = ATTR_WRITE_VALUE ∨ c.attrName = ATTR_WRITE_ONCE ∨
      c.attrName = ATTR_WRITE_PAUSE)
    (hprim : st c.noticePrimPath = some prim)
    (hsym : prim.symbol = some sym) :
    (prim.writeOnce = some true →
      (processChanged rootPrimPath st c).2 = [(some sym, prim.writeValue)]
      ∧ (processChanged rootPrimPath st c).1 c.noticePrimPath =
          some { prim with writeOnce := some false })
    ∧ (prim.writeOnce = some true → prim.writePause = some true →
      (processChanged rootPrimPath
        (processChanged rootPrimPath st c).1 c).2 = [])
    ∧ (prim.writeOnce = some false → prim.writePause = some false →
      (processChanged rootPrimPath st c).2 = [(some sym, prim.writeValue)]
      ∧ (processChanged rootPrimPath st c).1 c.noticePrimPath = some prim) := by
  have hg := processChanged_guarded rootPrimPath st c prim sym hroot hname
    hprim hsym
  refine ⟨?_, ?_, ?_⟩
  · intro honce
    have hcond :
        (prim.writeOnce.getD false || !(prim.writePause.getD false)) = true := by
      simp [honce]
    rw [hg, if_pos hcond]
    exact ⟨rfl, by simp [stageSet]⟩
  · intro honce hpause
    have hcond :
        (prim.writeOnce.getD false || !(prim.writePause.getD false)) = true := by
      simp [honce]
    rw [hg, if_pos hcond]
    have hskip : processChanged rootPrimPath
        (stageSet st c.noticePrimPath { prim with writeOnce := some false })
        c = (stageSet st c.noticePrimPath
          { prim with writeOnce := some false }, []) := by
      apply processChanged_paused
      intro q hq
      have hat : stageSet st c.noticePrimPath
          { prim with writeOnce := some false } c.noticePrimPath =
          some { prim with writeOnce := some false } := by
        simp [stageSet]
      rw [hat] at hq
      injection hq with hq
      rw [← hq]
      exact ⟨rfl, by simp [hpause]⟩
    rw [hskip]
  · intro honce hpause
    have hcond :
        (prim.writeOnce.getD false || !(prim.writePause.getD false)) = true := by
      simp [honce, hpause]
    rw [hg, if_pos hcond]
    refine ⟨rfl, ?_⟩
    have hpeq : ({ prim with writeOnce := some false } : WritePrim W) = prim := by
      cases prim with
      | mk s o pz wv =>
        have ho : o = some false := honce
        rw [ho]
    rw [show (stageSet st c.noticePrimPath { prim with writeOnce := some false },
      ([(some sym, prim.writeValue)] : List (Option W × Option W))).1 =
      stageSet st c.noticePrimPath { prim with writeOnce := some false }
      from rfl]
    rw [hpeq]
    simp [stageSet]

/-- C3 — witness: `write:once = true` with `write:pause = true` forwards
once and resets the flag on the stage. -/
theorem notice_write_once_cleared_witness :
    (processChanged "/World"
      (exStage ⟨some "MAIN.x", some true, some true, some "5"⟩)
      exChanged).2 = [(some "MAIN.x", some "5")]
    ∧ (processChanged "/World"
      (exStage ⟨some "MAIN.x", some true, some true, some "5"⟩)
      exChanged).1 exChanged.noticePrimPath =
        some ⟨some "MAIN.x", some false, some true, some "5"⟩ :=
  (notice_write_once_cleared "/World"
    (exStage ⟨some "MAIN.x", some true, some true, some "5"⟩) exChanged
    ⟨some "MAIN.x", some true, some true, some "5"⟩ "MAIN.x"
    (by decide) (Or.inl rfl) (by decide) rfl).1 rfl

/-- C4: a change notification whose owning node lacks a valid write-symbol
attribute (or has no prim at all) is ignored: the stage is untouched and no
bridge write is issued, for one notification and for a whole notice. -/
theorem notice_construction_guard (rootPrimPath : String) (st : UsdStage W)
    (c : ChangedPath) (cs : List ChangedPath)
    (hc : st c.noticePrimPath = none ∨
      ∃ prim, st c.noticePrimPath = some prim ∧ prim.symbol = none)
    (hcs : ∀ c' ∈ cs, st c'.noticePrimPath = none ∨
      ∃ prim, st c'.noticePrimPath = some prim ∧ prim.symbol = none) :
    processChanged rootPrimPath st c = (st, [])
    ∧ noticeChanged false rootPrimPath st cs = (st, []) :=
  ⟨processChanged_no_symbol rootPrimPath st c hc,
    noticeChanged_skips rootPrimPath st cs
      (fun c' h => processChanged_no_symbol rootPrimPath st c' (hcs c' h))⟩

/-- C4 — witness: a node still under construction (symbol attribute not yet
authored) triggers no write. -/
theorem notice_construction_guard_witness :
    processChanged "/World"
      (exStage ⟨none, some false, some false, some "5"⟩) exChanged =
      (exStage ⟨none, some false, some false, some "5"⟩, []) :=
  (notice_construction_guard "/World"
    (exStage ⟨none, some false, some false, some "5"⟩) exChanged []
    (Or.inr ⟨⟨none, some false, some false, some "5"⟩, by decide, rfl⟩)
    (fun c' h => absurd h (List.not_mem_nil c'))).1

/-- C5: the read loop is drift-corrected fixed-rate: when the period minus
the elapsed time is positive the iteration sleeps exactly that remainder and
sets `lastTick` to `now + remainder`; otherwise it only yields
(`time.sleep 0`) and sets `lastTick` to `now`; the read callback runs in
both branches, once per iteration of the loop. -/
theorem read_loop_drift_schedule (p lt now : ℚ) (ok : Bool)
    (sched : List (ℚ × Bool)) (lt0 : ℚ) :
    (0 < p / 1000 - (now - lt) →
      readIter p lt now ok =
        ([.sleep (p / 1000 - (now - lt)), .invoke ok] ++
          (if ok then [] else [.sleep (1/100)]),
          now + (p / 1000 - (now - lt))))
    ∧ (¬ 0 < p / 1000 - (now - lt) →
      readIter p lt now ok =
        ([.sleep 0, .invoke ok] ++ (if ok then [] else [.sleep (1/100)]),
          now))
    ∧ LoopAction.invoke ok ∈ (readIter p lt now ok).1
    ∧ invokeCount (readLoop p sched lt0) = sched.length := by
  refine ⟨?_, ?_, ?_, invokeCount_readLoop p sched lt0⟩
  · intro h
    simp [readIter, h]
  · intro h
    simp [readIter, h]
  · by_cases h : 0 < p / 1000 - (now - lt) <;> simp [readIter, h]

/-- C5 — witness: one on-schedule iteration with period 20 ms at
`lastTick = 0`, `now = 10 ms`. -/
theorem read_loop_drift_schedule_witness :
    readIter 20 0 (1/100) true =
      ([LoopAction.sleep (20 / 1000 - (1/100 - 0)),
        LoopAction.invoke true] ++
        (if true then [] else [LoopAction.sleep (1/100)]),
        1/100 + (20 / 1000 - (1/100 - 0))) :=
  (read_loop_drift_schedule 20 0 (1/100) true [] 0).1 (by norm_num)

/-- C6: a callback exception never terminates either loop — the read loop
runs its callback once per iteration whatever the outcomes, a failed read
iteration ends with the 10 ms backoff sleep, the write loop runs its
callback once per iteration, every sleep the write loop performs equals
`writeSleep` (no backoff), and a failed write iteration continues with no
sleep at all. -/
theorem loop_callback_exception_policy (p lt now ws : ℚ)
    (sched : List (ℚ × Bool)) (lt0 : ℚ) (oks : List Bool) :
    invokeCount (readLoop p sched lt0) = sched.length
    ∧ (readIter p lt now false).1 =
        (if 0 < p / 1000 - (now - lt)
          then [LoopAction.sleep (p / 1000 - (now - lt))]
          else [LoopAction.sleep 0]) ++
          [LoopAction.invoke false, LoopAction.sleep (1/100)]
    ∧ invokeCount (writeLoop ws oks) = oks.length
    ∧ (∀ a ∈ writeLoop ws oks, ∀ t, a = LoopAction.sleep t → t = ws)
    ∧ writeLoop ws (false :: oks) =
        LoopAction.invoke false :: writeLoop ws oks
    ∧ writeLoop ws (true :: oks) =
        LoopAction.invoke true :: LoopAction.sleep ws :: writeLoop ws oks := by
  refine ⟨invokeCount_readLoop p sched lt0, ?_,
    invokeCount_writeLoop ws oks, writeLoop_sleeps ws oks, rfl, rfl⟩
  by_cases h : 0 < p / 1000 - (now - lt) <;> simp [readIter, h]

/-- C6 — witness: the no-backoff clause evaluated on a one-iteration write
loop with `writeSleep = 1 ms`. -/
theorem loop_callback_exception_policy_witness : ((1 : ℚ)/1000) = 1/1000 :=
  (loop_callback_exception_policy 20 0 0 (1/1000) [] 0 [true]).2.2.2.1
    (LoopAction.sleep (1/1000)) (by simp [writeLoop]) (1/1000) rfl

/-- C8 — counterexample.  A 4×4 matrix-shaped textual value under an
ordinary attribute name is given a String-typed attribute, not a
matrix-typed one: the type chosen by `create_attr` is not determined by the
value's shape. -/
theorem create_attr_matrix_text_gets_string :
    (create_attr ⟨[]⟩ "foo"
      (.pstr "[[1.0, 0.0, 0.0, 0.0], [0.0, 1.0, 0.0, 0.0], [0.0, 0.0, 1.0, 0.0], [0.0, 0.0, 0.0, 1.0]]")).map
        (fun pa => pa.2.typeName) = some .string
    ∧ SdfValueType.string ≠ SdfValueType.matrix4d :=
  ⟨rfl, by decide⟩

/-- C8 (amended): for a newly created attribute the type is determined by
the attribute name and the value's Python type — any name other than
`xformOp:transform` gets String for `str` values, Bool for `bool` values and
Double for everything else (with the value stored as given); a matrix-typed
attribute arises only through the `xformOp:transform` name, and `set_attr`
on a matrix-typed attribute parses the textual value from its literal array
form. -/
theorem create_attr_type_by_name_and_pytype (p : UsdPrim) (name : String)
    (value : PyVal) (s : String) (a : UsdAttr)
    (hname : name ≠ "xformOp:transform")
    (hfresh : p.GetAttribute name = none)
    (hmat : a.typeName = .matrix4d) :
    (create_attr p name value).map (fun pa => pa.2.typeName) =
      some (match value with
        | .pstr _ => SdfValueType.string
        | .pbool _ => SdfValueType.boolean
        | _ => SdfValueType.double)
    ∧ (create_attr p name value).map (fun pa => pa.2.value) =
      some (some (.py value))
    ∧ set_attr a (.pstr s) = some { a with value := some (.matrix s) }
    ∧ (p.GetAttribute "xformOp:transform" = none →
      (create_attr p "xformOp:transform" (.pstr s)).map
        (fun pa => pa.2.typeName) = some .matrix4d
      ∧ (create_attr p "xformOp:transform" (.pstr s)).map
        (fun pa => pa.2.value) = some (some (.matrix s))) := by
  refine ⟨?_, ?_, by simp [set_attr, hmat], ?_⟩
  · cases value <;>
      simp [create_attr, UsdPrim.CreateAttribute, hname, hfresh, set_attr]
  · cases value <;>
      simp [create_attr, UsdPrim.CreateAttribute, hname, hfresh, set_attr]
  · intro hx
    have h1 : AddTransformOp p =
        p.putAttr "xformOp:transform" ⟨.matrix4d, none⟩ := by
      unfold AddTransformOp
      rw [hx]
    have h2 : (p.putAttr "xformOp:transform"
        ⟨.matrix4d, none⟩).GetAttribute "xformOp:transform" =
        some ⟨.matrix4d, none⟩ := by
      unfold UsdPrim.GetAttribute UsdPrim.putAttr
      rw [dictGet?_dictSet]
      simp
    constructor <;>
      simp [create_attr, h1, UsdPrim.CreateAttribute, h2, set_attr]

/-- C8 — witness: a boolean value on a fresh ordinary attribute gets a
Bool-typed attribute. -/
theorem create_attr_type_by_name_and_pytype_witness :
    (create_attr ⟨[]⟩ "foo" (.pbool true)).map (fun pa => pa.2.typeName) =
      some .boolean :=
  (create_attr_type_by_name_and_pytype ⟨[]⟩ "foo" (.pbool true) "[[1.0]]"
    ⟨.matrix4d, none⟩ (by decide) rfl rfl).1

/-- C9: when the target of an `AttributeOperation` does not exist —
no prim at the path, or (for value operations) no such attribute on the
prim — `execute` leaves the stage untouched, raises nothing, and returns
the "not found" signal `False`, so creation can be deferred outside the
batched edit. -/
theorem execute_target_not_found_pure (op : UsdOp) (stage : MergeStage)
    (value : PyVal) :
    (op.operation ≠ "type" → dictGet? stage op.path = none →
      op.execute stage value = some (stage, false))
    ∧ (op.operation ≠ "type" → ∀ prim, dictGet? stage op.path = some prim →
      prim.GetAttribute op.value = none →
      op.execute stage value = some (stage, false))
    ∧ (op.operation = "type" → dictGet? stage op.path = none →
      op.execute stage value = some (stage, false)) := by
  refine ⟨?_, ?_, ?_⟩
  · intro hop hmiss
    unfold UsdOp.execute
    by_cases hattr : op.operation = "attr"
    · rw [if_pos hattr]
      unfold set_symbol_prim_value
      rw [hmiss]
    · rw [if_neg hattr, if_neg hop]
      unfold set_symbol_prim_value
      rw [hmiss]
  · intro hop prim hprim hattrn
    unfold UsdOp.execute
    by_cases hattr : op.operation = "attr"
    · rw [if_pos hattr]
      unfold set_symbol_prim_value
      simp [hprim, hattrn]
    · rw [if_neg hattr, if_neg hop]
      unfold set_symbol_prim_value
      simp [hprim, hattrn]
  · intro hop hmiss
    unfold UsdOp.execute
    rw [if_neg (by rw [hop]; decide), if_pos hop, hmiss]

/-- C9 — witness: an `attr` operation against an empty stage. -/
theorem execute_target_not_found_pure_witness :
    (UsdOp.mk "attr" "/World/x" "k" "value").execute [] (.pnum 1) =
      some ([], false) :=
  (execute_target_not_found_pure ⟨"attr", "/World/x", "k", "value"⟩ []
    (.pnum 1)).1 (by decide) rfl

/-- C10: the `write_sleep_time` property reads and writes only the field
`_write_sleep_time`; assigning it leaves every other field — in particular
the `_write_sleep` interval the write loop actually sleeps — unchanged, so
the write-loop trace is unaffected; and on a freshly constructed instance
`_write_sleep_time` does not exist (reading the property raises) while
`_write_sleep` is 0.001. -/
theorem write_sleep_time_property_frame (st : RuntimeBase) (v : ℚ)
    (oks : List Bool) (n : String) :
    (st.setWriteSleepTime v).writeSleep = st.writeSleep
    ∧ (st.setWriteSleepTime v).refreshPeriodMs = st.refreshPeriodMs
    ∧ (st.setWriteSleepTime v).threadIsAlive = st.threadIsAlive
    ∧ (st.setWriteSleepTime v).name = st.name
    ∧ (st.setWriteSleepTime v).writeSleepTime = some v
    ∧ (st.setWriteSleepTime v).getWriteSleepTime = some v
    ∧ (st.setWriteSleepTime v).writeTrace oks = st.writeTrace oks
    ∧ (RuntimeBase.init n).getWriteSleepTime = none
    ∧ (RuntimeBase.init n).writeSleep = 1/1000 :=
  ⟨rfl, rfl, rfl, rfl, rfl, rfl, rfl, rfl, rfl⟩

end OmniUtils
